import Mathlib

/-!
Shallow embedding of `src/connect_four.rs` (the Connect Four rules engine).

The grid is `board : Fin 6 → Fin 7 → Cell` (6 rows × 7 columns, row 0 at the
bottom), mirroring the Rust `[[Cell; 7]; 6]`.  Operations that can panic in
Rust (out-of-bounds indexing, underflowing `usize` subtraction) are embedded
in `Option`, with `none` standing for a panic; the happy path mirrors the
Rust control flow statement by statement.  `game_move` returns the final
state of `self` alongside the `Result`, modelling `&mut self`.
-/

inductive Player where
  | Red
  | Yellow
deriving DecidableEq, Repr

inductive Cell where
  | Player (p : Player)
  | Empty
deriving DecidableEq, Repr

structure Board where
  current_player : Player
  board : Fin 6 → Fin 7 → Cell

inductive GameMoveResult where
  | Valid
  | Won (p : Player)
  | Stalemate
deriving DecidableEq, Repr

/-- Model of `Board::new`: all cells empty, given starting player. -/
def Board.new (starting_player : Player) : Board :=
  { current_player := starting_player, board := fun _ _ => Cell.Empty }

/-- Rust array indexing `self.board[r][c]`: `none` models the bounds-check panic. -/
def getCell (b : Board) (r c : Nat) : Option Cell :=
  if hr : r < 6 then
    if hc : c < 7 then some (b.board ⟨r, hr⟩ ⟨c, hc⟩) else none
  else none

/-- The cell at `(r, c)` when in range (junk default out of range; only used
under in-range hypotheses). -/
def cellD (b : Board) (r c : Nat) : Cell :=
  (getCell b r c).getD Cell.Empty

/-- Model of `Board::update_cell`: `self.board[row][col] = cell`. -/
def update_cell (b : Board) (row col : Nat) (cell : Cell) : Option Board :=
  if row < 6 ∧ col < 7 then
    some { b with
      board := fun r c => if r.val = row ∧ c.val = col then cell else b.board r c }
  else none

/-- The in-bounds write performed by `update_cell`. -/
def setCell (b : Board) (row col : Nat) (cell : Cell) : Board :=
  { b with
    board := fun r c => if r.val = row ∧ c.val = col then cell else b.board r c }

/-- Checked `usize` subtraction: `none` models the underflow panic. -/
def checkedSub (a b : Nat) : Option Nat :=
  if b ≤ a then some (a - b) else none

/-- The running-count scan of `has_won`, on a list of already-fetched cells:
count consecutive cells of player `p`, reset on mismatch or empty, return
`true` as soon as the count reaches 4. -/
def countRun (p : Player) : List Cell → Nat → Bool
  | [], _ => false
  | Cell.Player q :: rest, cnt =>
      if q = p then
        if cnt + 1 = 4 then true else countRun p rest (cnt + 1)
      else countRun p rest 0
  | Cell.Empty :: rest, _ => countRun p rest 0

/-- The same scan over possibly-panicking cell fetches (`none` = panic).
The short-circuit on reaching 4 happens before any later fetch, as in Rust. -/
def scanLoop (p : Player) : List (Option Cell) → Nat → Option Bool
  | [], _ => some false
  | none :: _, _ => none
  | some (Cell.Player q) :: rest, cnt =>
      if q = p then
        if cnt + 1 = 4 then some true else scanLoop p rest (cnt + 1)
      else scanLoop p rest 0
  | some Cell.Empty :: rest, _ => scanLoop p rest 0

/-- Scan the cells at the given coordinates. -/
def scanCells (b : Board) (p : Player) (coords : List (Nat × Nat)) (cnt : Nat) :
    Option Bool :=
  scanLoop p (coords.map fun rc => getCell b rc.1 rc.2) cnt

/-- Coordinates visited by the row scan `for i in 0..7 { board[row][i] }`. -/
def rowCoords (row : Nat) : List (Nat × Nat) :=
  (List.range 7).map fun i => (row, i)

/-- Coordinates visited by the column scan `for i in 0..6 { board[i][col] }`. -/
def colCoords (col : Nat) : List (Nat × Nat) :=
  (List.range 6).map fun i => (i, col)

/-- Start of the north-east (rising `/`) diagonal scan:
`if row <= col { (0, col - row) } else { (row - col, 0) }`.
Neither subtraction can underflow (each is guarded by its branch). -/
def neStart (row col : Nat) : Nat × Nat :=
  if row ≤ col then (0, col - row) else (row - col, 0)

/-- Coordinates visited by the north-east diagonal scan, with its range
`if 6 - coord.0 < 7 - coord.1 { 6 - coord.0 } else { 7 - coord.1 }`;
the subtractions may underflow for out-of-range inputs. -/
def neCoords (row col : Nat) : Option (List (Nat × Nat)) :=
  match checkedSub 6 (neStart row col).1, checkedSub 7 (neStart row col).2 with
  | some a, some d =>
      some ((List.range (if a < d then a else d)).map fun i =>
        ((neStart row col).1 + i, (neStart row col).2 + i))
  | _, _ => none

/-- Start of the south-east (falling `\`) diagonal scan:
`if (col + row) as i32 - 6 > 0 { coord.0 -= 6 - col; coord.1 = 6 }
 else { coord.0 = 0; coord.1 += row }`. -/
def seStart (row col : Nat) : Option (Nat × Nat) :=
  if (col : Int) + (row : Int) - 6 > 0 then
    match checkedSub 6 col with
    | none => none
    | some d =>
      match checkedSub row d with
      | none => none
      | some r0 => some (r0, 6)
  else some (0, col + row)

/-- Coordinates visited by the south-east diagonal scan, with its range
`if 5 - coord.0 < coord.1 { 5 - coord.0 } else { coord.1 + 1 }`. -/
def seCoords (row col : Nat) : Option (List (Nat × Nat)) :=
  match seStart row col with
  | none => none
  | some s =>
    match checkedSub 5 s.1 with
    | none => none
    | some a =>
      some ((List.range (if a < s.2 then a else s.2 + 1)).map fun i =>
        (s.1 + i, s.2 - i))

/-- Model of `Board::has_won(row, col)`: row scan, column scan, north-east diagonal
scan, south-east diagonal scan, each short-circuiting on a count of 4. -/
def has_won (b : Board) (row col : Nat) : Option Bool :=
  match scanCells b b.current_player (rowCoords row) 0 with
  | none => none
  | some true => some true
  | some false =>
    match scanCells b b.current_player (colCoords col) 0 with
    | none => none
    | some true => some true
    | some false =>
      match neCoords row col with
      | none => none
      | some nec =>
        match scanCells b b.current_player nec 0 with
        | none => none
        | some true => some true
        | some false =>
          match seCoords row col with
          | none => none
          | some sc =>
            scanCells b b.current_player sc 0

/-- The loop of `row_available`: first `i` in the list with `board[i][col]`
empty; outer `none` models the indexing panic. -/
def rowAvailLoop (b : Board) (col : Nat) : List Nat → Option (Option Nat)
  | [] => some none
  | i :: rest =>
    match getCell b i col with
    | none => none
    | some c => if c = Cell.Empty then some (some i) else rowAvailLoop b col rest

/-- Model of `Board::row_available(col)`: lowest empty row of the column, if any. -/
def row_available (b : Board) (col : Nat) : Option (Option Nat) :=
  rowAvailLoop b col (List.range 6)

/-- Whether a (non-panicking) `row_available` call found a row. -/
def isSomeSome : Option (Option Nat) → Bool
  | some (some _) => true
  | _ => false

/-- Model of `Board::game_move(col)`: stalemate check over all 7 columns first, then
placement in `col`, win detection from the placed cell, and turn flip.
The returned `Board` is the final state of `self`. -/
def game_move (b : Board) (col : Nat) :
    Option (Except String GameMoveResult × Board) :=
  if (List.range 7).all (fun i => !(isSomeSome (row_available b i))) then
    some (Except.ok GameMoveResult.Stalemate, b)
  else
    match row_available b col with
    | none => none
    | some none => some (Except.error ("Column " ++ toString col ++ " is full."), b)
    | some (some row) =>
      match update_cell b row col (Cell.Player b.current_player) with
      | none => none
      | some b1 =>
        match has_won b1 row col with
        | none => none
        | some true => some (Except.ok (GameMoveResult.Won b1.current_player), b1)
        | some false =>
          some (Except.ok GameMoveResult.Valid,
            { b1 with current_player :=
                if b1.current_player = Player.Yellow then Player.Red
                else Player.Yellow })

/-! Derived notions used to state the claims. -/

/-- The cells along a coordinate list. -/
def lineOf (b : Board) (coords : List (Nat × Nat)) : List Cell :=
  coords.map fun rc => cellD b rc.1 rc.2

/-- The cells scanned by the horizontal check through `(row, _)`. -/
def rowLine (b : Board) (row : Nat) : List Cell := lineOf b (rowCoords row)

/-- The cells scanned by the vertical check through `(_, col)`. -/
def colLine (b : Board) (col : Nat) : List Cell := lineOf b (colCoords col)

/-- The cells scanned by the rising-diagonal check through `(row, col)`. -/
def neLine (b : Board) (row col : Nat) : List Cell :=
  lineOf b ((neCoords row col).getD [])

/-- The cells scanned by the falling-diagonal check through `(row, col)`. -/
def seLine (b : Board) (row col : Nat) : List Cell :=
  lineOf b ((seCoords row col).getD [])

/-- Four consecutive cells of player `p` somewhere in the list. -/
def hasRun (p : Player) (l : List Cell) : Prop :=
  ∃ i, ∀ k, k < 4 → l.get? (i + k) = some (Cell.Player p)

instance (p : Player) (l : List Cell) : Decidable (hasRun p l) :=
  decidable_of_iff
    (∃ i ∈ List.range l.length, ∀ k ∈ List.range 4,
      l.get? (i + k) = some (Cell.Player p)) (by
    constructor
    · rintro ⟨i, _, h⟩
      exact ⟨i, fun k hk => h k (List.mem_range.mpr hk)⟩
    · rintro ⟨i, h⟩
      refine ⟨i, List.mem_range.mpr ?_, fun k hk => h k (List.mem_range.mp hk)⟩
      have h0 := h 0 (by omega)
      by_contra hlen
      rw [List.get?_eq_none.mpr (by omega)] at h0
      exact Option.noConfusion h0)

instance {ε α : Type} [DecidableEq ε] [DecidableEq α] : DecidableEq (Except ε α) :=
  fun a b =>
  match a, b with
  | Except.ok x, Except.ok y => decidable_of_iff (x = y) (by simp)
  | Except.error x, Except.error y => decidable_of_iff (x = y) (by simp)
  | Except.ok _, Except.error _ => isFalse (by simp)
  | Except.error _, Except.ok _ => isFalse (by simp)

instance : DecidableEq Board := fun a b =>
  decidable_of_iff (a.current_player = b.current_player ∧ a.board = b.board) (by
    cases a
    cases b
    simp)

/-- The other player (what the turn flip computes). -/
def otherPlayer : Player → Player
  | Player.Red => Player.Yellow
  | Player.Yellow => Player.Red

/-- Gravity invariant: every occupied cell has every cell below it in the
same column occupied. -/
def gravityInv (b : Board) : Prop :=
  ∀ r, r < 6 → ∀ c, c < 7 → ∀ j, j < r →
    getCell b r c ≠ some Cell.Empty → getCell b j c ≠ some Cell.Empty

/-- Boards reachable from a fresh board by non-panicking `game_move` calls. -/
inductive Reachable : Board → Prop where
  | base (p : Player) : Reachable (Board.new p)
  | step {b : Board} {col : Nat} {r : Except String GameMoveResult} {b2 : Board} :
      Reachable b → game_move b col = some (r, b2) → Reachable b2

/-! Concrete boards used as witnesses / counterexamples. -/

/-- Red run on the falling diagonal `(2,4), (3,3), (4,2), (5,1)` and nothing
else; Red to move. -/
def bugBoard : Board :=
  { current_player := Player.Red,
    board := fun r c =>
      if (r.val = 2 ∧ c.val = 4) ∨ (r.val = 3 ∧ c.val = 3) ∨
         (r.val = 4 ∧ c.val = 2) ∨ (r.val = 5 ∧ c.val = 1) then
        Cell.Player Player.Red
      else Cell.Empty }

/-- The board of the repository's `horizontal_connect_four` test: Red at
`(0,1)`, `(0,3)..(0,6)`, `(1,1)..(1,3)`; Yellow at `(0,2)`; Red to move. -/
def hBoard : Board :=
  { current_player := Player.Red,
    board := fun r c =>
      if r.val = 0 ∧ c.val = 2 then Cell.Player Player.Yellow
      else if (r.val = 0 ∧ 1 ≤ c.val) ∨ (r.val = 1 ∧ 1 ≤ c.val ∧ c.val ≤ 3) then
        Cell.Player Player.Red
      else Cell.Empty }

/-- A completely full board (alternating colors; content irrelevant). -/
def fullBoard : Board :=
  { current_player := Player.Red,
    board := fun r c =>
      Cell.Player (if (r.val + c.val) % 2 = 0 then Player.Red else Player.Yellow) }

/-- Column 2 full (nothing else occupied); Red to move. -/
def colFullBoard : Board :=
  { current_player := Player.Red,
    board := fun r c =>
      if c.val = 2 then
        Cell.Player (if r.val % 2 = 0 then Player.Red else Player.Yellow)
      else Cell.Empty }

/-- Red run on the rising diagonal `(1,3), (2,4), (3,5), (4,6)`; Red to move. -/
def neBoard : Board :=
  { current_player := Player.Red,
    board := fun r c =>
      if (r.val = 1 ∧ c.val = 3) ∨ (r.val = 2 ∧ c.val = 4) ∨
         (r.val = 3 ∧ c.val = 5) ∨ (r.val = 4 ∧ c.val = 6) then
        Cell.Player Player.Red
      else Cell.Empty }


/-! ### Theory of the running-count scan -/

theorem countRun_mono (p : Player) (l : List Cell) : ∀ c c' : Nat, c ≤ c' → c' ≤ 3 →
    countRun p l c = true → countRun p l c' = true := by
  induction l with
  | nil => intro c c' _ _ h; simp [countRun] at h
  | cons x rest ih =>
    intro c c' hcc hc3 h
    cases x with
    | Empty =>
      simp only [countRun] at h ⊢
      exact ih 0 0 le_rfl (by omega) h
    | Player q =>
      by_cases hq : q = p
      · simp only [countRun, if_pos hq] at h ⊢
        by_cases h4 : c' + 1 = 4
        · simp [h4]
        · rw [if_neg h4]
          rw [if_neg (by omega : ¬ c + 1 = 4)] at h
          exact ih (c + 1) (c' + 1) (by omega) (by omega) h
      · simp only [countRun, if_neg hq] at h ⊢
        exact ih 0 0 le_rfl (by omega) h

theorem countRun_lead (p : Player) (l : List Cell) : ∀ c : Nat, c ≤ 3 →
    (∀ k, k < 4 - c → l.get? k = some (Cell.Player p)) → countRun p l c = true := by
  induction l with
  | nil =>
    intro c hc h
    have h0 := h 0 (by omega)
    simp at h0
  | cons x rest ih =>
    intro c hc h
    have h0 := h 0 (by omega)
    have hx : x = Cell.Player p := by simpa using h0
    subst hx
    simp only [countRun, if_pos rfl]
    by_cases h4 : c + 1 = 4
    · simp [h4]
    · rw [if_neg h4]
      refine ih (c + 1) (by omega) fun k hk => ?_
      have := h (k + 1) (by omega)
      simpa using this

theorem countRun_drop (p : Player) (l : List Cell) : ∀ j c : Nat, c ≤ 3 →
    countRun p (l.drop j) 0 = true → countRun p l c = true := by
  induction l with
  | nil =>
    intro j c _ h
    simp [countRun] at h
  | cons x rest ih =>
    intro j c hc h
    match j with
    | 0 => exact countRun_mono p (x :: rest) 0 c (by omega) hc (by simpa using h)
    | j + 1 =>
      rw [List.drop_succ_cons] at h
      cases x with
      | Empty =>
        simp only [countRun]
        exact ih j 0 (by omega) h
      | Player q =>
        by_cases hq : q = p
        · simp only [countRun, if_pos hq]
          by_cases h4 : c + 1 = 4
          · simp [h4]
          · rw [if_neg h4]
            exact ih j (c + 1) (by omega) h
        · simp only [countRun, if_neg hq]
          exact ih j 0 (by omega) h

theorem countRun_of_run (p : Player) (l : List Cell) (i : Nat)
    (h : ∀ k, k < 4 → l.get? (i + k) = some (Cell.Player p)) :
    countRun p l 0 = true := by
  apply countRun_drop p l i 0 (by omega)
  apply countRun_lead p _ 0 (by omega)
  intro k hk
  rw [List.get?_drop]
  exact h k (by omega)

theorem countRun_complete (p : Player) (l : List Cell) : ∀ c : Nat,
    countRun p l c = true →
    (∃ i, ∀ k, k < 4 → l.get? (i + k) = some (Cell.Player p)) ∨
    (∀ k, k < 4 - c → l.get? k = some (Cell.Player p)) := by
  induction l with
  | nil => intro c h; simp [countRun] at h
  | cons x rest ih =>
    intro c h
    cases x with
    | Empty =>
      simp only [countRun] at h
      rcases ih 0 h with ⟨i, hi⟩ | hlead
      · refine Or.inl ⟨i + 1, fun k hk => ?_⟩
        have := hi k hk
        simpa [Nat.add_right_comm i 1 k] using this
      · refine Or.inl ⟨1, fun k hk => ?_⟩
        have := hlead k (by omega)
        simpa [Nat.add_comm 1 k] using this
    | Player q =>
      by_cases hq : q = p
      · subst hq
        simp only [countRun, if_pos rfl] at h
        by_cases h4 : c + 1 = 4
        · right
          intro k hk
          have hk0 : k = 0 := by omega
          subst hk0
          rfl
        · rw [if_neg h4] at h
          rcases ih (c + 1) h with ⟨i, hi⟩ | hlead
          · refine Or.inl ⟨i + 1, fun k hk => ?_⟩
            have := hi k hk
            simpa [Nat.add_right_comm i 1 k] using this
          · right
            intro k hk
            match k with
            | 0 => rfl
            | k + 1 =>
              have := hlead k (by omega)
              simpa using this
      · simp only [countRun, if_neg hq] at h
        rcases ih 0 h with ⟨i, hi⟩ | hlead
        · refine Or.inl ⟨i + 1, fun k hk => ?_⟩
          have := hi k hk
          simpa [Nat.add_right_comm i 1 k] using this
        · refine Or.inl ⟨1, fun k hk => ?_⟩
          have := hlead k (by omega)
          simpa [Nat.add_comm 1 k] using this

theorem countRun_iff_hasRun (p : Player) (l : List Cell) :
    countRun p l 0 = true ↔ hasRun p l := by
  constructor
  · intro h
    rcases countRun_complete p l 0 h with ⟨i, hi⟩ | hlead
    · exact ⟨i, hi⟩
    · refine ⟨0, fun k hk => ?_⟩
      have := hlead k (by omega)
      simpa using this
  · rintro ⟨i, hi⟩
    exact countRun_of_run p l i hi

/-! ### From coordinate scans to pure cell-list scans -/

theorem scanLoop_map_some (p : Player) (l : List Cell) : ∀ c : Nat,
    scanLoop p (l.map some) c = some (countRun p l c) := by
  induction l with
  | nil => intro c; simp [scanLoop, countRun]
  | cons x rest ih =>
    intro c
    cases x with
    | Empty => simp [scanLoop, countRun, ih]
    | Player q =>
      by_cases hq : q = p
      · simp only [List.map, scanLoop, countRun, if_pos hq]
        by_cases h4 : c + 1 = 4 <;> simp [h4, ih]
      · simp [List.map, scanLoop, countRun, if_neg hq, ih]

theorem mapCongrMem {α β : Type} (f g : α → β) : ∀ l : List α,
    (∀ a ∈ l, f a = g a) → l.map f = l.map g := by
  intro l
  induction l with
  | nil => intro _; rfl
  | cons x xs ih =>
    intro h
    simp only [List.map, h x (by simp)]
    rw [ih fun a ha => h a (by simp [ha])]

theorem getCell_eq_cellD {b : Board} {r c : Nat} (hr : r < 6) (hc : c < 7) :
    getCell b r c = some (cellD b r c) := by
  simp [getCell, cellD, hr, hc]

theorem scanCells_eq_countRun (b : Board) (p : Player) (coords : List (Nat × Nat))
    (h : ∀ rc ∈ coords, rc.1 < 6 ∧ rc.2 < 7) (c : Nat) :
    scanCells b p coords c = some (countRun p (lineOf b coords) c) := by
  unfold scanCells lineOf
  rw [show (coords.map fun rc => getCell b rc.1 rc.2)
        = (coords.map fun rc => cellD b rc.1 rc.2).map some by
      rw [List.map_map]
      exact mapCongrMem _ _ coords fun rc hrc =>
        getCell_eq_cellD (h rc hrc).1 (h rc hrc).2]
  exact scanLoop_map_some p _ c

theorem rowCoords_mem {row : Nat} (hr : row < 6) :
    ∀ rc ∈ rowCoords row, rc.1 < 6 ∧ rc.2 < 7 := by
  intro rc hrc
  unfold rowCoords at hrc
  simp only [List.mem_map, List.mem_range] at hrc
  obtain ⟨i, hi, rfl⟩ := hrc
  exact ⟨hr, hi⟩

theorem colCoords_mem {col : Nat} (hc : col < 7) :
    ∀ rc ∈ colCoords col, rc.1 < 6 ∧ rc.2 < 7 := by
  intro rc hrc
  unfold colCoords at hrc
  simp only [List.mem_map, List.mem_range] at hrc
  obtain ⟨i, hi, rfl⟩ := hrc
  exact ⟨hi, hc⟩

/-! ### The diagonal coordinate computations, in range -/

theorem neStart_facts (row col : Nat) :
    (neStart row col).1 + col = (neStart row col).2 + row ∧
    ((neStart row col).1 = 0 ∨ (neStart row col).2 = 0) ∧
    (neStart row col).1 ≤ row ∧ (neStart row col).2 ≤ col := by
  unfold neStart
  split <;> simp <;> omega

theorem neCoords_eq {row col : Nat} (hr : row < 6) (hc : col < 7) :
    neCoords row col =
      some ((List.range
        (if 6 - (neStart row col).1 < 7 - (neStart row col).2
         then 6 - (neStart row col).1 else 7 - (neStart row col).2)).map fun i =>
        ((neStart row col).1 + i, (neStart row col).2 + i)) := by
  have h1 : (neStart row col).1 ≤ 6 := by
    have := (neStart_facts row col).2.2.1
    omega
  have h2 : (neStart row col).2 ≤ 7 := by
    have := (neStart_facts row col).2.2.2
    omega
  unfold neCoords
  simp [checkedSub, h1, h2]

theorem neCoords_mem {row col : Nat} (hr : row < 6) (hc : col < 7) :
    ∀ l, neCoords row col = some l → ∀ rc ∈ l, rc.1 < 6 ∧ rc.2 < 7 := by
  intro l hl rc hrc
  rw [neCoords_eq hr hc] at hl
  obtain rfl := Option.some_injective _ hl.symm
  simp only [List.mem_map, List.mem_range] at hrc
  obtain ⟨i, hi, rfl⟩ := hrc
  constructor <;> [skip; skip] <;> dsimp only <;> split at hi <;> omega

theorem seStart_spec {row col : Nat} (hr : row < 6) (hc : col < 7) :
    ∃ s1 s2 : Nat, seStart row col = some (s1, s2) ∧ s1 + s2 = row + col ∧
      s1 ≤ 5 ∧ s2 ≤ 6 ∧
      ((s1 = 0 ∧ row + col ≤ 6) ∨ (s2 = 6 ∧ 6 < row + col)) := by
  unfold seStart
  by_cases hgt : (col : Int) + (row : Int) - 6 > 0
  · have h6 : 6 < col + row := by omega
    have hcol : col ≤ 6 := by omega
    have hrow : 6 - col ≤ row := by omega
    rw [if_pos hgt]
    simp only [checkedSub, if_pos hcol, if_pos hrow]
    exact ⟨row - (6 - col), 6, rfl, by omega, by omega, by omega,
      Or.inr ⟨rfl, by omega⟩⟩
  · have h6 : col + row ≤ 6 := by omega
    rw [if_neg hgt]
    exact ⟨0, col + row, rfl, by omega, by omega, by omega,
      Or.inl ⟨rfl, by omega⟩⟩

theorem seCoords_spec {row col : Nat} (hr : row < 6) (hc : col < 7) :
    ∃ s1 s2 : Nat, seStart row col = some (s1, s2) ∧ s1 + s2 = row + col ∧
      s1 ≤ 5 ∧ s2 ≤ 6 ∧
      ((s1 = 0 ∧ row + col ≤ 6) ∨ (s2 = 6 ∧ 6 < row + col)) ∧
      seCoords row col =
        some ((List.range (if 5 - s1 < s2 then 5 - s1 else s2 + 1)).map fun i =>
          (s1 + i, s2 - i)) := by
  obtain ⟨s1, s2, hs, hsum, hs1, hs2, hcase⟩ := seStart_spec hr hc
  refine ⟨s1, s2, hs, hsum, hs1, hs2, hcase, ?_⟩
  unfold seCoords
  rw [hs]
  simp [checkedSub, show s1 ≤ 5 from hs1]

theorem seCoords_mem {row col : Nat} (hr : row < 6) (hc : col < 7) :
    ∀ l, seCoords row col = some l → ∀ rc ∈ l, rc.1 < 6 ∧ rc.2 < 7 := by
  intro l hl rc hrc
  obtain ⟨s1, s2, _, hsum, hs1, hs2, _, hse⟩ := seCoords_spec hr hc
  rw [hse] at hl
  obtain rfl := Option.some_injective _ hl.symm
  simp only [List.mem_map, List.mem_range] at hrc
  obtain ⟨i, hi, rfl⟩ := hrc
  constructor <;> dsimp only <;> split at hi <;> omega

/-! ### `has_won` on in-range cells: total, and equal to four pure scans -/

theorem has_won_eq (b : Board) {row col : Nat} (hr : row < 6) (hc : col < 7) :
    has_won b row col = some (
      countRun b.current_player (rowLine b row) 0 ||
      (countRun b.current_player (colLine b col) 0 ||
      (countRun b.current_player (neLine b row col) 0 ||
      countRun b.current_player (seLine b row col) 0))) := by
  have hne := neCoords_eq hr hc
  obtain ⟨s1, s2, _, _, _, _, _, hse⟩ := seCoords_spec hr hc
  have hrowscan := scanCells_eq_countRun b b.current_player _ (rowCoords_mem hr) 0
  have hcolscan := scanCells_eq_countRun b b.current_player _ (colCoords_mem hc) 0
  have hnescan := scanCells_eq_countRun b b.current_player _
    (neCoords_mem hr hc _ hne) 0
  have hsescan := scanCells_eq_countRun b b.current_player _
    (seCoords_mem hr hc _ hse) 0
  simp only [has_won, rowLine, colLine, neLine, seLine, hne, hse, Option.getD_some,
    hrowscan, hcolscan, hnescan, hsescan]
  generalize countRun b.current_player (lineOf b (rowCoords row)) 0 = r1
  generalize countRun b.current_player (lineOf b (colCoords col)) 0 = r2
  cases r1 <;> cases r2 <;> first
  | rfl
  | (generalize countRun b.current_player (lineOf b _) 0 = r3
     generalize countRun b.current_player (lineOf b _) 0 = r4
     cases r3 <;> cases r4 <;> rfl)

theorem has_won_isSome (b : Board) {row col : Nat} (hr : row < 6) (hc : col < 7) :
    (has_won b row col).isSome = true := by
  rw [has_won_eq b hr hc]
  rfl

/-! ### `row_available` -/

theorem rowAvailLoop_isSome {b : Board} {col : Nat} (hc : col < 7) :
    ∀ l : List Nat, (∀ i ∈ l, i < 6) → (rowAvailLoop b col l).isSome = true := by
  intro l
  induction l with
  | nil => intro _; rfl
  | cons i rest ih =>
    intro h
    have hi : i < 6 := h i (by simp)
    simp only [rowAvailLoop, getCell_eq_cellD hi hc]
    by_cases he : cellD b i col = Cell.Empty
    · rw [if_pos he]
      rfl
    · rw [if_neg he]
      exact ih fun j hj => h j (by simp [hj])

theorem rowAvailLoop_found {b : Board} {col : Nat} :
    ∀ (l : List Nat) (k : Nat), rowAvailLoop b col l = some (some k) →
      k ∈ l ∧ getCell b k col = some Cell.Empty := by
  intro l
  induction l with
  | nil => intro k h; simp [rowAvailLoop] at h
  | cons i rest ih =>
    intro k h
    rcases hg : getCell b i col with _ | c
    · simp only [rowAvailLoop, hg] at h
      simp at h
    · simp only [rowAvailLoop, hg] at h
      by_cases he : c = Cell.Empty
      · rw [if_pos he] at h
        obtain rfl : i = k := by simpa using h
        exact ⟨by simp, by rw [hg, he]⟩
      · rw [if_neg he] at h
        obtain ⟨hk, hcell⟩ := ih k h
        exact ⟨by simp [hk], hcell⟩

theorem rowAvailLoop_none {b : Board} {col : Nat} :
    ∀ l : List Nat, rowAvailLoop b col l = some none →
      ∀ i ∈ l, getCell b i col ≠ some Cell.Empty := by
  intro l
  induction l with
  | nil => simp
  | cons i rest ih =>
    intro h j hj
    rcases hg : getCell b i col with _ | c
    · simp only [rowAvailLoop, hg] at h
      simp at h
    · simp only [rowAvailLoop, hg] at h
      by_cases he : c = Cell.Empty
      · rw [if_pos he] at h
        simp at h
      · rw [if_neg he] at h
        rcases List.mem_cons.mp hj with rfl | hjr
        · rw [hg]
          intro hcon
          exact he (by simpa using hcon)
        · exact ih h j hjr

theorem rowAvailLoop_full {b : Board} {col : Nat} (hc : col < 7) :
    ∀ l : List Nat, (∀ i ∈ l, i < 6) →
      (∀ i ∈ l, getCell b i col ≠ some Cell.Empty) →
      rowAvailLoop b col l = some none := by
  intro l
  induction l with
  | nil => intro _ _; rfl
  | cons i rest ih =>
    intro h6 hne
    have hi : i < 6 := h6 i (by simp)
    have hcell := getCell_eq_cellD (b := b) hi hc
    have hnemp : cellD b i col ≠ Cell.Empty := by
      intro hcon
      exact hne i (by simp) (by rw [hcell, hcon])
    simp only [rowAvailLoop, hcell]
    rw [if_neg hnemp]
    exact ih (fun j hj => h6 j (by simp [hj])) (fun j hj => hne j (by simp [hj]))

theorem rowAvailLoop_least {b : Board} {col : Nat} :
    ∀ l : List Nat, l.Pairwise (· < ·) → ∀ k, rowAvailLoop b col l = some (some k) →
      ∀ j ∈ l, j < k → getCell b j col ≠ some Cell.Empty := by
  intro l
  induction l with
  | nil => simp
  | cons i rest ih =>
    intro hp k h j hj hjk
    obtain ⟨hhead, htail⟩ := List.pairwise_cons.mp hp
    rcases hg : getCell b i col with _ | c
    · simp only [rowAvailLoop, hg] at h
      simp at h
    · simp only [rowAvailLoop, hg] at h
      by_cases he : c = Cell.Empty
      · rw [if_pos he] at h
        obtain rfl : i = k := by simpa using h
        rcases List.mem_cons.mp hj with rfl | hjr
        · omega
        · exact absurd (hhead j hjr) (by omega)
      · rw [if_neg he] at h
        rcases List.mem_cons.mp hj with rfl | hjr
        · rw [hg]
          intro hcon
          exact he (by simpa using hcon)
        · exact ih htail k h j hjr hjk

theorem rowAvailLoop_first {b : Board} {col : Nat} (hc : col < 7) :
    ∀ l : List Nat, (∀ i ∈ l, i < 6) → l.Pairwise (· < ·) → ∀ k, k ∈ l →
      getCell b k col = some Cell.Empty →
      (∀ j ∈ l, j < k → getCell b j col ≠ some Cell.Empty) →
      rowAvailLoop b col l = some (some k) := by
  intro l
  induction l with
  | nil => simp
  | cons i rest ih =>
    intro h6 hp k hk hke hleast
    obtain ⟨hhead, htail⟩ := List.pairwise_cons.mp hp
    rcases List.mem_cons.mp hk with rfl | hkr
    · simp [rowAvailLoop, hke]
    · have hik : i < k := hhead k hkr
      have hi : i < 6 := h6 i (by simp)
      have hcell := getCell_eq_cellD (b := b) hi hc
      have hine : cellD b i col ≠ Cell.Empty := by
        intro hcon
        exact hleast i (by simp) hik (by rw [hcell, hcon])
      simp only [rowAvailLoop, hcell]
      rw [if_neg hine]
      exact ih (fun j hj => h6 j (by simp [hj])) htail k hkr hke
        fun j hj hjk => hleast j (by simp [hj]) hjk

/-! ### Derived `row_available` facts -/

theorem row_available_isSome {b : Board} {col : Nat} (hc : col < 7) :
    (row_available b col).isSome = true :=
  rowAvailLoop_isSome hc _ fun i hi => List.mem_range.mp hi

theorem row_available_found {b : Board} {col k : Nat}
    (h : row_available b col = some (some k)) :
    k < 6 ∧ getCell b k col = some Cell.Empty := by
  obtain ⟨hm, hcell⟩ := rowAvailLoop_found _ k h
  exact ⟨List.mem_range.mp hm, hcell⟩

theorem row_available_least {b : Board} {col k : Nat}
    (h : row_available b col = some (some k)) :
    ∀ j, j < k → getCell b j col ≠ some Cell.Empty := by
  intro j hjk
  have hk6 : k < 6 := (row_available_found h).1
  exact rowAvailLoop_least _ (List.pairwise_lt_range 6) k h j
    (List.mem_range.mpr (by omega)) hjk

theorem row_available_full {b : Board} {col : Nat} (hc : col < 7)
    (h : ∀ r, r < 6 → getCell b r col ≠ some Cell.Empty) :
    row_available b col = some none :=
  rowAvailLoop_full hc _ (fun i hi => List.mem_range.mp hi)
    fun i hi => h i (List.mem_range.mp hi)

theorem row_available_some_none {b : Board} {col : Nat}
    (h : row_available b col = some none) :
    ∀ r, r < 6 → getCell b r col ≠ some Cell.Empty :=
  fun r hr => rowAvailLoop_none _ h r (List.mem_range.mpr hr)

theorem row_available_first {b : Board} {col : Nat} (hc : col < 7) {k : Nat}
    (hk : k < 6) (hke : getCell b k col = some Cell.Empty)
    (hleast : ∀ j, j < k → getCell b j col ≠ some Cell.Empty) :
    row_available b col = some (some k) :=
  rowAvailLoop_first hc _ (fun i hi => List.mem_range.mp hi)
    (List.pairwise_lt_range 6) k (List.mem_range.mpr hk) hke
    fun j _ hjk => hleast j hjk

theorem row_available_of_empty {b : Board} {col : Nat} (hc : col < 7) {r : Nat}
    (hr : r < 6) (he : getCell b r col = some Cell.Empty) :
    ∃ k, row_available b col = some (some k) := by
  have hs := row_available_isSome (b := b) hc
  rcases hra : row_available b col with _ | x
  · rw [hra] at hs
    simp at hs
  · rcases x with _ | k
    · exact absurd he (row_available_some_none hra r hr)
    · exact ⟨k, rfl⟩

theorem row_available_panic {b : Board} {col : Nat}
    (h : row_available b col = none) : 7 ≤ col := by
  by_contra hlt
  have hs := row_available_isSome (b := b) (show col < 7 by omega)
  rw [h] at hs
  simp at hs

/-! ### The stalemate pre-check of `game_move` -/

theorem stalemate_true {b : Board}
    (h : ∀ r, r < 6 → ∀ c, c < 7 → getCell b r c ≠ some Cell.Empty) :
    ((List.range 7).all fun i => !(isSomeSome (row_available b i))) = true := by
  rw [List.all_eq_true]
  intro i hi
  have hi7 : i < 7 := List.mem_range.mp hi
  rw [row_available_full hi7 fun r hr => h r hr i hi7]
  rfl

theorem stalemate_false {b : Board} {r c : Nat} (hr : r < 6) (hc : c < 7)
    (he : getCell b r c = some Cell.Empty) :
    ((List.range 7).all fun i => !(isSomeSome (row_available b i))) = false := by
  obtain ⟨k, hk⟩ := row_available_of_empty hc hr he
  by_contra hne
  have hall : ((List.range 7).all fun i => !(isSomeSome (row_available b i))) = true := by
    revert hne
    cases (List.range 7).all fun i => !(isSomeSome (row_available b i)) <;> simp
  have := List.all_eq_true.mp hall c (List.mem_range.mpr hc)
  rw [hk] at this
  simp [isSomeSome] at this

theorem stalemate_false_empty {b : Board}
    (h : ((List.range 7).all fun i => !(isSomeSome (row_available b i))) = false) :
    ∃ r, r < 6 ∧ ∃ c, c < 7 ∧ getCell b r c = some Cell.Empty := by
  by_contra hno
  push_neg at hno
  rw [stalemate_true fun r hr c hc => hno r hr c hc] at h
  simp at h

/-! ### `update_cell` and `setCell` -/

theorem update_cell_eq {b : Board} {row col : Nat} (hr : row < 6) (hc : col < 7)
    (cell : Cell) :
    update_cell b row col cell = some (setCell b row col cell) := by
  unfold update_cell setCell
  rw [if_pos ⟨hr, hc⟩]

theorem setCell_current (b : Board) (row col : Nat) (cell : Cell) :
    (setCell b row col cell).current_player = b.current_player := rfl

theorem getCell_setCell (b : Board) (row col : Nat) (cell : Cell) {r c : Nat}
    (hr : r < 6) (hc : c < 7) :
    getCell (setCell b row col cell) r c =
      if r = row ∧ c = col then some cell else getCell b r c := by
  by_cases h : r = row ∧ c = col
  · obtain ⟨rfl, rfl⟩ := h
    simp [getCell, setCell, hr, hc]
  · simp [getCell, setCell, hr, hc, h]

/-! ### `game_move` case reductions -/

theorem game_move_stalemate {b : Board} (col : Nat)
    (hst : ((List.range 7).all fun i => !(isSomeSome (row_available b i))) = true) :
    game_move b col = some (Except.ok GameMoveResult.Stalemate, b) := by
  unfold game_move
  rw [hst]
  rfl

theorem game_move_colfull {b : Board} {col : Nat}
    (hst : ((List.range 7).all fun i => !(isSomeSome (row_available b i))) = false)
    (hra : row_available b col = some none) :
    game_move b col =
      some (Except.error ("Column " ++ toString col ++ " is full."), b) := by
  unfold game_move
  rw [hst]
  simp only [Bool.false_eq_true, if_false, hra]

theorem game_move_panic {b : Board} {col : Nat}
    (hst : ((List.range 7).all fun i => !(isSomeSome (row_available b i))) = false)
    (hra : row_available b col = none) :
    game_move b col = none := by
  unfold game_move
  rw [hst]
  simp only [Bool.false_eq_true, if_false, hra]

theorem game_move_won {b : Board} {col k : Nat}
    (hst : ((List.range 7).all fun i => !(isSomeSome (row_available b i))) = false)
    (hra : row_available b col = some (some k)) (hk : k < 6) (hc : col < 7)
    (hw : has_won (setCell b k col (Cell.Player b.current_player)) k col = some true) :
    game_move b col = some (Except.ok (GameMoveResult.Won b.current_player),
      setCell b k col (Cell.Player b.current_player)) := by
  unfold game_move
  rw [hst]
  simp only [Bool.false_eq_true, if_false, hra,
    update_cell_eq hk hc (Cell.Player b.current_player), hw]
  rfl

theorem game_move_valid {b : Board} {col k : Nat}
    (hst : ((List.range 7).all fun i => !(isSomeSome (row_available b i))) = false)
    (hra : row_available b col = some (some k)) (hk : k < 6) (hc : col < 7)
    (hw : has_won (setCell b k col (Cell.Player b.current_player)) k col = some false) :
    game_move b col = some (Except.ok GameMoveResult.Valid,
      { setCell b k col (Cell.Player b.current_player) with
          current_player :=
            if b.current_player = Player.Yellow then Player.Red
            else Player.Yellow }) := by
  unfold game_move
  rw [hst]
  simp only [Bool.false_eq_true, if_false, hra,
    update_cell_eq hk hc (Cell.Player b.current_player), hw]
  rfl

theorem row_available_oob {b : Board} {col : Nat} (h : 7 ≤ col) :
    row_available b col = none := by
  have hg : getCell b 0 col = none := by
    simp [getCell]
    omega
  unfold row_available
  rw [show List.range 6 = 0 :: [1, 2, 3, 4, 5] by decide]
  simp only [rowAvailLoop, hg]

/-! ### Claims -/

/-- C3: if every cell of the board is occupied, then `game_move b col`
returns `Ok(Stalemate)` with the board unchanged — for every `col : Nat`,
in range or not — and in particular never the column-full error, because the
all-columns-full check runs before `col` is used. -/
theorem C3_stalemate_precedence (b : Board) (col : Nat)
    (hfull : ∀ r, r < 6 → ∀ c, c < 7 → getCell b r c ≠ some Cell.Empty) :
    game_move b col = some (Except.ok GameMoveResult.Stalemate, b) :=
  game_move_stalemate col (stalemate_true hfull)

theorem C3_witness :
    game_move fullBoard 9 = some (Except.ok GameMoveResult.Stalemate, fullBoard) :=
  C3_stalemate_precedence fullBoard 9 (by decide)

/-- C4: if `col < 7`, column `col` is full, and some other cell is empty,
then `game_move b col` fails with exactly the message
`"Column <col> is full."` and the board (grid and current player) is
unchanged: the returned state is `b` itself. -/
theorem C4_column_full_error (b : Board) (col : Nat) (hc : col < 7)
    (hcolfull : ∀ r, r < 6 → getCell b r col ≠ some Cell.Empty)
    (hother : ∃ r, r < 6 ∧ ∃ c, c < 7 ∧ getCell b r c = some Cell.Empty) :
    game_move b col =
      some (Except.error ("Column " ++ toString col ++ " is full."), b) := by
  obtain ⟨r, hr, c, hcc, he⟩ := hother
  exact game_move_colfull (stalemate_false hr hcc he) (row_available_full hc hcolfull)

theorem C4_witness :
    game_move colFullBoard 2 =
      some (Except.error ("Column " ++ toString (2 : Nat) ++ " is full."),
        colFullBoard) :=
  C4_column_full_error colFullBoard 2 (by decide) (by decide)
    ⟨0, by decide, 0, by decide, by decide⟩

/-- C5: gravity of placement.  `row_available b col = Some(Some k)` exactly
when `k` is the lowest row whose cell in column `col` is empty (so every row
below `k` is occupied); it is `Some(None)` exactly when all 6 rows of the
column are occupied; and when a row `k` is available, `game_move b col`
writes the current player's token at cell `(k, col)` of the returned board. -/
theorem C5_gravity_placement (b : Board) (col : Nat) (hc : col < 7) :
    (∀ k, row_available b col = some (some k) ↔
      (k < 6 ∧ getCell b k col = some Cell.Empty ∧
        ∀ j, j < k → getCell b j col ≠ some Cell.Empty)) ∧
    (row_available b col = some none ↔
      ∀ j, j < 6 → getCell b j col ≠ some Cell.Empty) ∧
    (∀ k, row_available b col = some (some k) →
      ∃ res b2, game_move b col = some (res, b2) ∧
        getCell b2 k col = some (Cell.Player b.current_player)) := by
  refine ⟨fun k => ⟨fun h => ⟨(row_available_found h).1, (row_available_found h).2,
      row_available_least h⟩,
    fun h => row_available_first hc h.1 h.2.1 h.2.2⟩,
    ⟨fun h => row_available_some_none h, fun h => row_available_full hc h⟩, ?_⟩
  intro k hra
  obtain ⟨hk6, hke⟩ := row_available_found hra
  have hst := stalemate_false hk6 hc hke
  have hcell : getCell (setCell b k col (Cell.Player b.current_player)) k col
      = some (Cell.Player b.current_player) := by
    rw [getCell_setCell b k col _ hk6 hc]
    simp
  rcases hw : has_won (setCell b k col (Cell.Player b.current_player)) k col with _ | w
  · have hs := has_won_isSome (setCell b k col (Cell.Player b.current_player)) hk6 hc
    rw [hw] at hs
    simp at hs
  · cases w
    · exact ⟨_, _, game_move_valid hst hra hk6 hc hw, hcell⟩
    · exact ⟨_, _, game_move_won hst hra hk6 hc hw, hcell⟩

theorem C5_witness :
    (1 : Nat) < 7 ∧ row_available hBoard 1 = some (some 2) ∧
    ∃ res b2, game_move hBoard 1 = some (res, b2) ∧
      getCell b2 2 1 = some (Cell.Player Player.Red) :=
  ⟨by decide, by decide,
    (C5_gravity_placement hBoard 1 (by decide)).2.2 2 (by decide)⟩

/-- C9: totality in range.  For `col < 7`, `game_move b col` never panics
(all array indexing is in bounds and no `usize` subtraction underflows, so
the embedded computation is `some`); and whenever the embedding does panic
(`none`), the column index was out of range (`col ≥ 7`) and the board was
not full. -/
theorem C9_totality :
    (∀ (b : Board) (col : Nat), col < 7 → (game_move b col).isSome = true) ∧
    (∀ (b : Board) (col : Nat), game_move b col = none →
      7 ≤ col ∧ ∃ r, r < 6 ∧ ∃ c, c < 7 ∧ getCell b r c = some Cell.Empty) := by
  constructor
  · intro b col hc
    cases hst : (List.range 7).all fun i => !(isSomeSome (row_available b i))
    · rcases hra : row_available b col with _ | x
      · have hs := row_available_isSome (b := b) hc
        rw [hra] at hs
        simp at hs
      · rcases x with _ | k
        · rw [game_move_colfull hst hra]
          rfl
        · obtain ⟨hk6, _⟩ := row_available_found hra
          rcases hw : has_won (setCell b k col (Cell.Player b.current_player)) k col
            with _ | w
          · have hs := has_won_isSome (setCell b k col (Cell.Player b.current_player))
              hk6 hc
            rw [hw] at hs
            simp at hs
          · cases w
            · rw [game_move_valid hst hra hk6 hc hw]
              rfl
            · rw [game_move_won hst hra hk6 hc hw]
              rfl
    · rw [game_move_stalemate col hst]
      rfl
  · intro b col hnone
    cases hst : (List.range 7).all fun i => !(isSomeSome (row_available b i))
    · rcases hra : row_available b col with _ | x
      · exact ⟨row_available_panic hra, stalemate_false_empty hst⟩
      · rcases x with _ | k
        · rw [game_move_colfull hst hra] at hnone
          simp at hnone
        · have hcol7 : col < 7 := by
            by_contra hge
            rw [row_available_oob (by omega)] at hra
            simp at hra
          obtain ⟨hk6, _⟩ := row_available_found hra
          rcases hw : has_won (setCell b k col (Cell.Player b.current_player)) k col
            with _ | w
          · have hs := has_won_isSome (setCell b k col (Cell.Player b.current_player))
              hk6 hcol7
            rw [hw] at hs
            simp at hs
          · cases w
            · rw [game_move_valid hst hra hk6 hcol7 hw] at hnone
              simp at hnone
            · rw [game_move_won hst hra hk6 hcol7 hw] at hnone
              simp at hnone
    · rw [game_move_stalemate col hst] at hnone
      simp at hnone

theorem C9_witness : (game_move (Board.new Player.Red) 0).isSome = true :=
  C9_totality.1 (Board.new Player.Red) 0 (by decide)

/-- C6: turn alternation.  For `col < 7`: a `Valid` move flips
`current_player` to the other player; a `Won(p)` result has `p` equal to the
pre-move current player and leaves `current_player` unchanged; a `Stalemate`
result leaves `current_player` unchanged; an error leaves the whole board
unchanged. -/
theorem C6_turn_alternation (b : Board) (col : Nat) (hc : col < 7) :
    (∀ b2, game_move b col = some (Except.ok GameMoveResult.Valid, b2) →
      b2.current_player = otherPlayer b.current_player) ∧
    (∀ p b2, game_move b col = some (Except.ok (GameMoveResult.Won p), b2) →
      p = b.current_player ∧ b2.current_player = b.current_player) ∧
    (∀ b2, game_move b col = some (Except.ok GameMoveResult.Stalemate, b2) →
      b2.current_player = b.current_player) ∧
    (∀ e b2, game_move b col = some (Except.error e, b2) → b2 = b) := by
  cases hst : (List.range 7).all fun i => !(isSomeSome (row_available b i))
  · rcases hra : row_available b col with _ | x
    · have hs := row_available_isSome (b := b) hc
      rw [hra] at hs
      simp at hs
    · rcases x with _ | k
      · have hgm := game_move_colfull hst hra
        refine ⟨?_, ?_, ?_, ?_⟩ <;> intros p2 h2 <;> try intro h3
        · rw [hgm] at h2
          simp at h2
        · rw [hgm] at h3
          simp at h3
        · rw [hgm] at h2
          simp at h2
        · rw [hgm] at h3
          simp only [Option.some.injEq, Prod.mk.injEq] at h3
          exact h3.2.symm ▸ rfl
      · obtain ⟨hk6, _⟩ := row_available_found hra
        rcases hw : has_won (setCell b k col (Cell.Player b.current_player)) k col
          with _ | w
        · have hs := has_won_isSome (setCell b k col (Cell.Player b.current_player))
            hk6 hc
          rw [hw] at hs
          simp at hs
        · cases w
          · have hgm := game_move_valid hst hra hk6 hc hw
            refine ⟨?_, ?_, ?_, ?_⟩ <;> intros p2 h2 <;> try intro h3
            · rw [hgm] at h2
              simp only [Option.some.injEq, Prod.mk.injEq] at h2
              rw [← h2.2]
              cases hcp : b.current_player <;> simp [otherPlayer, hcp]
            · rw [hgm] at h3
              simp at h3
            · rw [hgm] at h2
              simp at h2
            · rw [hgm] at h3
              simp at h3
          · have hgm := game_move_won hst hra hk6 hc hw
            refine ⟨?_, ?_, ?_, ?_⟩ <;> intros p2 h2 <;> try intro h3
            · rw [hgm] at h2
              simp at h2
            · rw [hgm] at h3
              simp only [Option.some.injEq, Prod.mk.injEq, Except.ok.injEq,
                GameMoveResult.Won.injEq] at h3
              exact ⟨h3.1.symm, by rw [← h3.2]; rfl⟩
            · rw [hgm] at h2
              simp at h2
            · rw [hgm] at h3
              simp at h3
  · have hgm := game_move_stalemate col hst
    refine ⟨?_, ?_, ?_, ?_⟩ <;> intros p2 h2 <;> try intro h3
    · rw [hgm] at h2
      simp at h2
    · rw [hgm] at h3
      simp at h3
    · rw [hgm] at h2
      simp only [Option.some.injEq, Prod.mk.injEq] at h2
      rw [← h2.2]
    · rw [hgm] at h3
      simp at h3

theorem C6_witness :
    (∀ b2, game_move (Board.new Player.Red) 3 =
        some (Except.ok GameMoveResult.Valid, b2) →
      b2.current_player = otherPlayer (Board.new Player.Red).current_player) ∧
    (∀ p b2, game_move (Board.new Player.Red) 3 =
        some (Except.ok (GameMoveResult.Won p), b2) →
      p = (Board.new Player.Red).current_player ∧
      b2.current_player = (Board.new Player.Red).current_player) ∧
    (∀ b2, game_move (Board.new Player.Red) 3 =
        some (Except.ok GameMoveResult.Stalemate, b2) →
      b2.current_player = (Board.new Player.Red).current_player) ∧
    (∀ e b2, game_move (Board.new Player.Red) 3 = some (Except.error e, b2) →
      b2 = Board.new Player.Red) :=
  C6_turn_alternation (Board.new Player.Red) 3 (by decide)

/-! ### Gravity invariant -/

theorem gravityInv_new (p : Player) : gravityInv (Board.new p) := by
  intro r hr c hc j hj hocc
  exfalso
  apply hocc
  simp [getCell, Board.new, hr, hc]

theorem gravityInv_setCell {b : Board} {k col : Nat} {p : Player}
    (hg : gravityInv b) (hk6 : k < 6) (hc : col < 7)
    (hbelow : ∀ j, j < k → getCell b j col ≠ some Cell.Empty) :
    gravityInv (setCell b k col (Cell.Player p)) := by
  intro r hr c hcc j hj hocc
  rw [getCell_setCell b k col _ (show j < 6 by omega) hcc]
  by_cases hjc : j = k ∧ c = col
  · rw [if_pos hjc]
    simp
  · rw [if_neg hjc]
    by_cases hrc : r = k ∧ c = col
    · obtain ⟨rfl, rfl⟩ := hrc
      exact hbelow j hj
    · rw [getCell_setCell b k col _ hr hcc, if_neg hrc] at hocc
      exact hg r hr c hcc j hj hocc

theorem gravity_step {b : Board} {col : Nat}
    {res : Except String GameMoveResult} {b2 : Board}
    (hg : gravityInv b) (h : game_move b col = some (res, b2)) :
    gravityInv b2 := by
  cases hst : (List.range 7).all fun i => !(isSomeSome (row_available b i))
  · rcases hra : row_available b col with _ | x
    · rw [game_move_panic hst hra] at h
      simp at h
    · rcases x with _ | k
      · rw [game_move_colfull hst hra] at h
        simp only [Option.some.injEq, Prod.mk.injEq] at h
        rw [← h.2]
        exact hg
      · have hcol7 : col < 7 := by
          by_contra hge
          rw [row_available_oob (by omega)] at hra
          simp at hra
        obtain ⟨hk6, hke⟩ := row_available_found hra
        have hset : gravityInv (setCell b k col (Cell.Player b.current_player)) :=
          gravityInv_setCell hg hk6 hcol7 (row_available_least hra)
        rcases hw : has_won (setCell b k col (Cell.Player b.current_player)) k col
          with _ | w
        · have hs := has_won_isSome (setCell b k col (Cell.Player b.current_player))
            hk6 hcol7
          rw [hw] at hs
          simp at hs
        · cases w
          · rw [game_move_valid hst hra hk6 hcol7 hw] at h
            simp only [Option.some.injEq, Prod.mk.injEq] at h
            rw [← h.2]
            exact hset
          · rw [game_move_won hst hra hk6 hcol7 hw] at h
            simp only [Option.some.injEq, Prod.mk.injEq] at h
            rw [← h.2]
            exact hset
  · rw [game_move_stalemate col hst] at h
    simp only [Option.some.injEq, Prod.mk.injEq] at h
    rw [← h.2]
    exact hg

/-- C7: gravity invariant preservation.  If a board satisfies the gravity
invariant (every occupied cell sits on occupied cells), then the board left
by any `game_move` call with `col < 7` still satisfies it; and every board
reachable from `Board::new` by `game_move` calls satisfies it. -/
theorem C7_gravity_invariant :
    (∀ (b : Board) (col : Nat) (res : Except String GameMoveResult) (b2 : Board),
      col < 7 → gravityInv b → game_move b col = some (res, b2) →
      gravityInv b2) ∧
    (∀ b : Board, Reachable b → gravityInv b) := by
  refine ⟨fun b col res b2 _ hg h => gravity_step hg h, ?_⟩
  intro b hreach
  induction hreach with
  | base p => exact gravityInv_new p
  | step _ hgm ih => exact gravity_step ih hgm

theorem C7_witness : gravityInv (Board.new Player.Red) :=
  C7_gravity_invariant.2 (Board.new Player.Red) (Reachable.base Player.Red)

theorem countRun_false_of_not_hasRun {p : Player} {l : List Cell}
    (h : ¬ hasRun p l) : countRun p l 0 = false := by
  cases hcr : countRun p l 0
  · rfl
  · exact absurd ((countRun_iff_hasRun p l).mp hcr) h

/-- C2: the rising (`/`) diagonal check is complete.  If the rising diagonal
through the in-range cell `(row, col)` contains 4 consecutive cells owned by
the current player, `has_won` returns `true`; moreover the scan's coordinate
list covers every in-range cell of that diagonal. -/
theorem C2_rising_diag_detects :
    (∀ (b : Board) (row col : Nat), row < 6 → col < 7 →
      (∃ r c : Nat, r + col = c + row ∧ r + 3 < 6 ∧ c + 3 < 7 ∧
        ∀ k, k < 4 → getCell b (r + k) (c + k) =
          some (Cell.Player b.current_player)) →
      has_won b row col = some true) ∧
    (∀ row col : Nat, row < 6 → col < 7 → ∀ r c : Nat, r < 6 → c < 7 →
      r + col = c + row → ∃ l, neCoords row col = some l ∧ (r, c) ∈ l) := by
  have key : ∀ row col : Nat, row < 6 → col < 7 → ∀ r c : Nat,
      r + col = c + row →
      (neStart row col).1 ≤ r ∧ (neStart row col).2 ≤ c ∧
        r - (neStart row col).1 = c - (neStart row col).2 := by
    intro row col hr hc r c hdiag
    obtain ⟨hsum, hzero, hler, hlec⟩ := neStart_facts row col
    rcases hzero with h0 | h0 <;> omega
  constructor
  · intro b row col hr hc hrun
    obtain ⟨r, c, hdiag, hr3, hc3, hcells⟩ := hrun
    obtain ⟨hs1r, hs2c, hsub⟩ := key row col hr hc r c hdiag
    rw [has_won_eq b hr hc]
    have hne := neCoords_eq hr hc
    have hrange : (r - (neStart row col).1) + 3 <
        (if 6 - (neStart row col).1 < 7 - (neStart row col).2
         then 6 - (neStart row col).1 else 7 - (neStart row col).2) := by
      split <;> omega
    have hrun2 : hasRun b.current_player (neLine b row col) := by
      refine ⟨r - (neStart row col).1, fun k hk => ?_⟩
      have hik : (r - (neStart row col).1) + k <
          (if 6 - (neStart row col).1 < 7 - (neStart row col).2
           then 6 - (neStart row col).1 else 7 - (neStart row col).2) := by
        omega
      unfold neLine
      rw [hne, Option.getD_some]
      unfold lineOf
      rw [List.get?_map, List.get?_map, List.get?_range hik]
      simp only [Option.map_some']
      have h1 : (neStart row col).1 + ((r - (neStart row col).1) + k) = r + k := by
        omega
      have h2 : (neStart row col).2 + ((r - (neStart row col).1) + k) = c + k := by
        omega
      rw [h1, h2, ← getCell_eq_cellD (show r + k < 6 by omega)
        (show c + k < 7 by omega)]
      exact hcells k hk
    rw [(countRun_iff_hasRun _ _).mpr hrun2]
    cases countRun b.current_player (rowLine b row) 0 <;>
      cases countRun b.current_player (colLine b col) 0 <;> rfl
  · intro row col hr hc r c hr6 hc7 hdiag
    obtain ⟨hs1r, hs2c, hsub⟩ := key row col hr hc r c hdiag
    refine ⟨_, neCoords_eq hr hc, ?_⟩
    simp only [List.mem_map, List.mem_range]
    refine ⟨r - (neStart row col).1, by split <;> omega, ?_⟩
    have h1 : (neStart row col).1 + (r - (neStart row col).1) = r := by omega
    have h2 : (neStart row col).2 + (r - (neStart row col).1) = c := by omega
    rw [h1, h2]

theorem C2_witness : has_won neBoard 2 4 = some true :=
  C2_rising_diag_detects.1 neBoard 2 4 (by decide) (by decide)
    ⟨1, 3, by decide, by decide, by decide, by decide⟩

/-- C8: horizontal win-detection symmetry.  If the current player owns 4
consecutive cells of row `row`, then `has_won` returns `true` queried at any
of those 4 cells; and if none of the four scanned lines through an in-range
query cell contains 4 consecutive current-player cells (in particular for a
horizontal run of only 3), `has_won` returns `false` there. -/
theorem C8_horizontal_symmetry :
    (∀ (b : Board) (row c0 : Nat), row < 6 → c0 + 4 ≤ 7 →
      (∀ k, k < 4 → getCell b row (c0 + k) = some (Cell.Player b.current_player)) →
      ∀ k, k < 4 → has_won b row (c0 + k) = some true) ∧
    (∀ (b : Board) (row col : Nat), row < 6 → col < 7 →
      ¬ hasRun b.current_player (rowLine b row) →
      ¬ hasRun b.current_player (colLine b col) →
      ¬ hasRun b.current_player (neLine b row col) →
      ¬ hasRun b.current_player (seLine b row col) →
      has_won b row col = some false) := by
  constructor
  · intro b row c0 hr hc4 hcells k hk
    rw [has_won_eq b hr (show c0 + k < 7 by omega)]
    have hrun : hasRun b.current_player (rowLine b row) := by
      refine ⟨c0, fun j hj => ?_⟩
      have hcj : c0 + j < 7 := by omega
      unfold rowLine lineOf rowCoords
      rw [List.get?_map, List.get?_map, List.get?_range hcj]
      simp only [Option.map_some']
      rw [← getCell_eq_cellD hr hcj]
      exact hcells j hj
    rw [(countRun_iff_hasRun _ _).mpr hrun]
    rfl
  · intro b row col hr hc h1 h2 h3 h4
    rw [has_won_eq b hr hc, countRun_false_of_not_hasRun h1,
      countRun_false_of_not_hasRun h2, countRun_false_of_not_hasRun h3,
      countRun_false_of_not_hasRun h4]
    rfl

theorem C8_witness :
    has_won hBoard 0 (3 + 0) = some true ∧ has_won hBoard 1 1 = some false :=
  ⟨C8_horizontal_symmetry.1 hBoard 0 3 (by decide) (by decide) (by decide) 0
      (by decide),
   C8_horizontal_symmetry.2 hBoard 1 1 (by decide) (by decide) (by decide)
      (by decide) (by decide) (by decide)⟩

/-- C10 (implicit): the horizontal check of `has_won` depends only on `row`
and the vertical check only on `col`; any 4-in-a-row of the current player
anywhere in row `row` or column `col` makes `has_won b row col` return
`true`, even at a query cell that is empty (second conjunct exhibits such a
board). -/
theorem C10_line_dependence :
    (∀ (b : Board) (row col : Nat), row < 6 → col < 7 →
      (hasRun b.current_player (rowLine b row) ∨
        hasRun b.current_player (colLine b col)) →
      has_won b row col = some true) ∧
    (∃ b : Board, getCell b 0 0 = some Cell.Empty ∧ has_won b 0 0 = some true) := by
  constructor
  · intro b row col hr hc hrun
    rw [has_won_eq b hr hc]
    rcases hrun with h | h
    · rw [(countRun_iff_hasRun _ _).mpr h]
      rfl
    · rw [(countRun_iff_hasRun _ _).mpr h]
      cases countRun b.current_player (rowLine b row) 0 <;> rfl
  · exact ⟨hBoard, by decide, by decide⟩

theorem C10_witness : has_won hBoard 0 0 = some true :=
  C10_line_dependence.1 hBoard 0 0 (by decide) (by decide) (Or.inl (by decide))

/-- C1 evaluated on the code: the falling (`\`) diagonal through `(2, 4)`
of `bugBoard` consists of the 4 consecutive current-player cells
`(2,4), (3,3), (4,2), (5,1)`, yet `has_won` returns `false` — the
south-east scan's range `5 - coord.0` stops one short of the diagonal's
boundary and never reads `(5, 1)`. -/
theorem C1_falling_diag_code_bug :
    bugBoard.current_player = Player.Red ∧
    (∀ k, k < 4 → getCell bugBoard (2 + k) (4 - k) =
      some (Cell.Player Player.Red)) ∧
    has_won bugBoard 2 4 = some false :=
  ⟨rfl, by decide, by decide⟩
